import Mathlib

/-!
Verification development for the levelup-bot repository.

Numeric values computed by the Python code (floats) are modelled as exact
rationals (`ℚ`); decimal literals are parsed exactly.  Python's `\d` also
matches non-ASCII Unicode digits; here digits are modelled as the ASCII
digits `0`-`9`, which are the only digits the specified inputs use.
-/

namespace LevelupBot

abbrev Chars := List Char

/-- ASCII decimal digit test (model of regex `\d` restricted to ASCII). -/
def isDigitA (c : Char) : Bool := '0' ≤ c && c ≤ '9'

/-- Whitespace test (model of regex `\s` / Python `str.strip` whitespace). -/
def isWS (c : Char) : Bool := c.isWhitespace

/-- Maximal digit prefix of a character list, together with the rest
(model of a greedy `\d+`/`\d*` scan). -/
def takeDigits : Chars → Chars × Chars
  | [] => ([], [])
  | c :: cs =>
    if isDigitA c then
      let p := takeDigits cs
      (c :: p.1, p.2)
    else ([], c :: cs)

/-- Numeric value of a digit string (most significant first). -/
def natOfDigits (ds : Chars) : ℕ :=
  ds.foldl (fun acc c => acc * 10 + (c.toNat - 48)) 0

/-- A decimal numeric literal as captured by the regex group
`\d+(?:\.\d+)?`: integer-part digits and optional fraction digits. -/
structure NumLit where
  ip : Chars
  fp : Option Chars
deriving DecidableEq, Repr

/-- Well-formedness of a captured literal: nonempty digit strings. -/
def NumLit.WF (n : NumLit) : Bool :=
  !n.ip.isEmpty && n.ip.all isDigitA &&
    (match n.fp with
     | some f => !f.isEmpty && f.all isDigitA
     | none => true)

/-- The source text of a literal, as matched. -/
def NumLit.render (n : NumLit) : Chars :=
  n.ip ++ (match n.fp with | some f => '.' :: f | none => [])

/-- Exact numeric value of a literal (model of Python `float(...)` on the
captured string, idealized to exact rational arithmetic). -/
def NumLit.val (n : NumLit) : ℚ :=
  (natOfDigits n.ip : ℚ) +
    (match n.fp with
     | some f => (natOfDigits f : ℚ) / (10 : ℚ) ^ f.length
     | none => 0)

/-- Scan one numeric literal `\d+(?:\.\d+)?` at the head of the input
(greedy; the optional fraction is taken only when `.` is followed by a
digit, exactly as the regex backtracking resolves). -/
def scanNumber (cs : Chars) : Option (NumLit × Chars) :=
  let p := takeDigits cs
  if p.1 = [] then none
  else
    match p.2 with
    | c :: r2 =>
      if c = '.' then
        let q := takeDigits r2
        if q.1 = [] then some ({ ip := p.1, fp := none }, c :: r2)
        else some ({ ip := p.1, fp := some q.1 }, q.2)
      else some ({ ip := p.1, fp := none }, c :: r2)
    | [] => some ({ ip := p.1, fp := none }, [])

/-- Attempt to match `(\d+(?:\.\d+)?)\s*(op)\s*(\d+(?:\.\d+)?)` anchored at
the head of the input, for an operator class `ops`.  Greedy quantifiers
resolve to maximal munch for this pattern (shrinking any greedy group puts
a digit, `.` or whitespace in the operator slot, which always fails). -/
def matchExprAt (ops : List Char) (cs : Chars) : Option (NumLit × Char × NumLit × Chars) :=
  match scanNumber cs with
  | none => none
  | some (n1, r1) =>
    match r1.dropWhile isWS with
    | [] => none
    | op :: r2 =>
      if op ∈ ops then
        match scanNumber (r2.dropWhile isWS) with
        | some (n2, r3) => some (n1, op, n2, r3)
        | none => none
      else none

/-- Leftmost search (model of `re.search`) for the two-operand pattern. -/
def searchExpr (ops : List Char) : Chars → Option (NumLit × Char × NumLit)
  | [] => none
  | c :: cs =>
    match matchExprAt ops (c :: cs) with
    | some (n1, op, n2, _) => some (n1, op, n2)
    | none => searchExpr ops cs

/-- Operator class of the first search pattern `[+\-*/×÷]`. -/
def opsFull : List Char := ['+', '-', '*', '/', '×', '÷']

/-- Operator class of the cleaned-text search pattern `[+\-*/]`. -/
def opsAscii : List Char := ['+', '-', '*', '/']

/-- Does `pat` occur literally at the head of `cs`? -/
def startsWith : Chars → Chars → Bool
  | [], _ => true
  | _ :: _, [] => false
  | p :: ps, c :: cs => if p = c then startsWith ps cs else false

/-- Leftmost occurrence of the literal `pat` inside `cs`; returns the text
before the occurrence and the text after it. -/
def splitFirstSub (pat : Chars) : Chars → Option (Chars × Chars)
  | [] => if startsWith pat [] then some ([], []) else none
  | c :: cs =>
    if startsWith pat (c :: cs) then some ([], (c :: cs).drop pat.length)
    else
      match splitFirstSub pat cs with
      | some (pre, post) => some (c :: pre, post)
      | none => none

/-- Does `cs` contain the literal `pat`? -/
def containsSub (pat cs : Chars) : Bool := (splitFirstSub pat cs).isSome

/-- The literal `\begin{array}`. -/
def beginTok : Chars :=
  ['\\', 'b', 'e', 'g', 'i', 'n', '\x7b', 'a', 'r', 'r', 'a', 'y', '\x7d']

/-- The literal `\end{array}`. -/
def endTok : Chars :=
  ['\\', 'e', 'n', 'd', '\x7b', 'a', 'r', 'r', 'a', 'y', '\x7d']

/-- Model of `re.search(r'\\begin\{array\}.*?\\end\{array\}', text, DOTALL)`
as a boolean: some `\begin{array}` is followed (at or after its end) by an
`\end{array}`.  If the earliest `\begin{array}` has no `\end{array}` after
it then no later one has either, so checking the first occurrence suffices. -/
def latexArrayDetected (cs : Chars) : Bool :=
  match splitFirstSub beginTok cs with
  | some (_, rest) => containsSub endTok rest
  | none => false

/-- Model of `re.findall(r'\{(\d+)\}', text)` followed by `int(...)`:
all non-overlapping leftmost occurrences of `{digits}`. -/
def findBracedNumbers (fuel : ℕ) (cs : Chars) : List ℕ :=
  match fuel, cs with
  | 0, _ => []
  | _, [] => []
  | fuel + 1, c :: cs =>
    if c = '\x7b' then
      let p := takeDigits cs
      match p.1, p.2 with
      | _ :: _, '\x7d' :: r2 => natOfDigits p.1 :: findBracedNumbers fuel r2
      | _, _ => findBracedNumbers fuel cs
    else findBracedNumbers fuel cs

/-- Model of `str.replace(old, new)` for single characters. -/
def replaceChar (o n : Char) (cs : Chars) : Chars :=
  cs.map fun c => if c = o then n else c

/-- Model of `str.replace(old, '')` for a single character. -/
def dropCharAll (o : Char) (cs : Chars) : Chars :=
  cs.filter fun c => c ≠ o

/-- Model of `re.sub(r'\$\$', '', text)`: remove each non-overlapping
leftmost occurrence of `$$`. -/
def removeDollarDollar : Chars → Chars
  | [] => []
  | [c] => [c]
  | c :: c2 :: cs2 =>
    if c = '$' ∧ c2 = '$' then removeDollarDollar cs2
    else c :: removeDollarDollar (c2 :: cs2)

/-- Model of `re.sub(r'\\begin\{array\}.*?\\end\{array\}', '', text, DOTALL)`:
remove each lazy (shortest) block from a `\begin{array}` to the next
`\end{array}`.  Fueled recursion; `removeArrayBlocks` supplies the fuel. -/
def removeArrayBlocksAux (fuel : ℕ) (cs : Chars) : Chars :=
  match fuel with
  | 0 => cs
  | fuel + 1 =>
    match splitFirstSub beginTok cs with
    | none => cs
    | some (pre, rest) =>
      match splitFirstSub endTok rest with
      | none => cs
      | some (_, rest2) => pre ++ removeArrayBlocksAux fuel rest2

/-- Remove all `\begin{array}...\end{array}` blocks. -/
def removeArrayBlocks (cs : Chars) : Chars :=
  removeArrayBlocksAux cs.length cs

/-- Model of Python `str.strip()`: drop whitespace at both ends. -/
def stripWS (cs : Chars) : Chars :=
  ((cs.dropWhile isWS).reverse.dropWhile isWS).reverse

/-- The normalization pipeline of `parse_and_solve_math` (source lines
49-54): glyph replacements, `=`/`?` removal, `x`/`X` as multiplication,
`$$` removal, array-block removal, strip. -/
def normalize (cs : Chars) : Chars :=
  stripWS (removeArrayBlocks (removeDollarDollar
    (replaceChar 'X' '*' (replaceChar 'x' '*'
      (dropCharAll '?' (dropCharAll '='
        (replaceChar '÷' '/' (replaceChar '×' '*' cs))))))))

/-- Characters kept by the cleaning step `re.sub(r'[^\d+\-*/.() ]', '', _)`. -/
def keepChar (c : Char) : Bool :=
  isDigitA c || c ∈ ['+', '-', '*', '/', '.', '(', ')', ' ']

/-- Errors of the last-resort `eval(cleaned)` call (Python exceptions,
caught by the surrounding handler). -/
inductive EvalErr where
  | synErr
  | divZero
deriving DecidableEq, Repr

/-- Tokens of the restricted expression language `[\d+\-*/.() ]` that the
guarded `eval` call can receive. -/
inductive Tok where
  | num (q : ℚ)
  | plus
  | minus
  | star
  | slash
  | dstar
  | dslash
  | lpar
  | rpar
deriving DecidableEq, Repr

/-- Value of a decimal token with integer-part and fraction digits. -/
def decValue (ip fp : Chars) : ℚ :=
  (natOfDigits ip : ℚ) + (natOfDigits fp : ℚ) / (10 : ℚ) ^ fp.length

/-- Tokenizer for the guarded `eval` input (fueled; fuel is supplied by
`tokenize`).  `**` and `//` are the Python power and floor-division
operators, which are expressible in the kept character set. -/
def tokenizeAux (fuel : ℕ) (cs : Chars) : Option (List Tok) :=
  match fuel with
  | 0 => none
  | fuel + 1 =>
    match cs with
    | [] => some []
    | c :: rest =>
      if c = ' ' then tokenizeAux fuel rest
      else if c = '+' then (tokenizeAux fuel rest).map (Tok.plus :: ·)
      else if c = '-' then (tokenizeAux fuel rest).map (Tok.minus :: ·)
      else if c = '*' then
        match rest with
        | '*' :: rest2 => (tokenizeAux fuel rest2).map (Tok.dstar :: ·)
        | _ => (tokenizeAux fuel rest).map (Tok.star :: ·)
      else if c = '/' then
        match rest with
        | '/' :: rest2 => (tokenizeAux fuel rest2).map (Tok.dslash :: ·)
        | _ => (tokenizeAux fuel rest).map (Tok.slash :: ·)
      else if c = '(' then (tokenizeAux fuel rest).map (Tok.lpar :: ·)
      else if c = ')' then (tokenizeAux fuel rest).map (Tok.rpar :: ·)
      else if isDigitA c || c = '.' then
        let p := takeDigits (c :: rest)
        match p.2 with
        | '.' :: r2 =>
          let q := takeDigits r2
          if p.1 = [] ∧ q.1 = [] then none
          else (tokenizeAux fuel q.2).map (Tok.num (decValue p.1 q.1) :: ·)
        | r => (tokenizeAux fuel r).map (Tok.num (decValue p.1 []) :: ·)
      else none

/-- Tokenize a character list for the guarded `eval`. -/
def tokenize (cs : Chars) : Option (List Tok) :=
  tokenizeAux (cs.length + 1) cs

mutual

/-- Additive level of the `eval` expression grammar. -/
def pAdd (fuel : ℕ) (ts : List Tok) : Except EvalErr (ℚ × List Tok) :=
  match fuel with
  | 0 => .error .synErr
  | f + 1 => do
    let (v, ts1) ← pMul f ts
    pAddLoop f v ts1

/-- Left-associative chain of `+`/`-`. -/
def pAddLoop (fuel : ℕ) (acc : ℚ) (ts : List Tok) : Except EvalErr (ℚ × List Tok) :=
  match fuel with
  | 0 => .error .synErr
  | f + 1 =>
    match ts with
    | Tok.plus :: rest => do
      let (v, ts1) ← pMul f rest
      pAddLoop f (acc + v) ts1
    | Tok.minus :: rest => do
      let (v, ts1) ← pMul f rest
      pAddLoop f (acc - v) ts1
    | _ => .ok (acc, ts)

/-- Multiplicative level of the `eval` expression grammar. -/
def pMul (fuel : ℕ) (ts : List Tok) : Except EvalErr (ℚ × List Tok) :=
  match fuel with
  | 0 => .error .synErr
  | f + 1 => do
    let (v, ts1) ← pUnary f ts
    pMulLoop f v ts1

/-- Left-associative chain of `*`, `/` (true division) and `//` (floor
division); division by zero is an error, as in Python. -/
def pMulLoop (fuel : ℕ) (acc : ℚ) (ts : List Tok) : Except EvalErr (ℚ × List Tok) :=
  match fuel with
  | 0 => .error .synErr
  | f + 1 =>
    match ts with
    | Tok.star :: rest => do
      let (v, ts1) ← pUnary f rest
      pMulLoop f (acc * v) ts1
    | Tok.slash :: rest => do
      let (v, ts1) ← pUnary f rest
      if v = 0 then .error .divZero else pMulLoop f (acc / v) ts1
    | Tok.dslash :: rest => do
      let (v, ts1) ← pUnary f rest
      if v = 0 then .error .divZero else pMulLoop f ((⌊acc / v⌋ : ℤ) : ℚ) ts1
    | _ => .ok (acc, ts)

/-- Unary `+`/`-` level (binds looser than `**`, as in Python). -/
def pUnary (fuel : ℕ) (ts : List Tok) : Except EvalErr (ℚ × List Tok) :=
  match fuel with
  | 0 => .error .synErr
  | f + 1 =>
    match ts with
    | Tok.plus :: rest => pUnary f rest
    | Tok.minus :: rest => do
      let (v, ts1) ← pUnary f rest
      .ok (-v, ts1)
    | _ => pPow f ts

/-- Power level: `atom [** unary]`, right associative.  Python computes
float powers; the model supports the integer-exponent case exactly and
treats a non-integer exponent as an evaluation error (no claim depends on
the value of the `eval` fallback). -/
def pPow (fuel : ℕ) (ts : List Tok) : Except EvalErr (ℚ × List Tok) :=
  match fuel with
  | 0 => .error .synErr
  | f + 1 => do
    let (b, ts1) ← pAtom f ts
    match ts1 with
    | Tok.dstar :: rest => do
      let (e, ts2) ← pUnary f rest
      if e.den = 1 then
        if b = 0 ∧ e.num < 0 then .error .divZero
        else .ok (b ^ e.num, ts2)
      else .error .synErr
    | _ => .ok (b, ts1)

/-- Atoms: numeric literals and parenthesized expressions. -/
def pAtom (fuel : ℕ) (ts : List Tok) : Except EvalErr (ℚ × List Tok) :=
  match fuel with
  | 0 => .error .synErr
  | f + 1 =>
    match ts with
    | Tok.num q :: rest => .ok (q, rest)
    | Tok.lpar :: rest => do
      let (v, ts1) ← pAdd f rest
      match ts1 with
      | Tok.rpar :: ts2 => .ok (v, ts2)
      | _ => .error .synErr
    | _ => .error .synErr

end

/-- Model of the guarded `eval(cleaned)` call (source line 133): evaluate
the cleaned text as a Python arithmetic expression; any Python exception
is an error result. -/
def pyEval (cs : Chars) : Except EvalErr ℚ :=
  match tokenize cs with
  | none => .error .synErr
  | some ts =>
    match pAdd (5 * ts.length + 5) ts with
    | .ok (v, []) => .ok v
    | .ok (_, _ :: _) => .error .synErr
    | .error e => .error e

/-- Operator normalization of the first match site (source line 68:
`operator.replace('×', '*').replace('÷', '/')`). -/
def canonOp (op : Char) : Char :=
  if op = '×' then '*' else if op = '÷' then '/' else op

/-- Arithmetic dispatch on a normalized operator (source lines 74-86 and
110-121): division by zero returns `None`. -/
def evalOpA (a : NumLit) (opn : Char) (b : NumLit) : Option ℚ :=
  if opn = '+' then some (a.val + b.val)
  else if opn = '-' then some (a.val - b.val)
  else if opn = '*' then some (a.val * b.val)
  else if opn = '/' then
    if b.val = 0 then none else some (a.val / b.val)
  else none

/-- Evaluation of a matched two-operand expression (source lines 63-91 and
104-124; both sites have the same arithmetic, the first also normalizes
`×`/`÷`, which is inert for operators from the ASCII class). -/
def evalMatched (a : NumLit) (op : Char) (b : NumLit) : Option ℚ :=
  evalOpA a (canonOp op) b

/-- The LaTeX-array branch (source lines 25-44): if array markup is
detected and at least two braced numbers occur, return their sum
(`nums[0] + nums[1]` when exactly two, which equals the sum); with fewer
than two numbers the branch falls through (`none`). -/
def arrayBranch (cs : Chars) : Option ℚ :=
  if latexArrayDetected cs then
    match findBracedNumbers cs.length cs with
    | [n1, n2] => some ((n1 + n2 : ℕ) : ℚ)
    | n1 :: n2 :: rest => some (((n1 :: n2 :: rest).sum : ℕ) : ℚ)
    | _ => none
  else none

/-- The last-resort branch (source lines 130-138): evaluate the cleaned
text when it consists solely of kept characters and contains an operator;
any evaluation error falls through to `None`. -/
def evalFallback (cleaned : Chars) : Option ℚ :=
  if cleaned.all keepChar ∧ cleaned ≠ [] ∧
      (['+', '-', '*', '/'] : List Char).any (fun op => cleaned.contains op) then
    match pyEval cleaned with
    | .ok q => some q
    | .error _ => none
  else none

/-- The cleaned-text stage (source lines 95-138): strip non-math
characters, retry the two-operand search, then the `eval` fallback. -/
def cleanedStage (t : Chars) : Option ℚ :=
  let cleaned := stripWS (t.filter keepChar)
  if cleaned = [] then none
  else
    match searchExpr opsAscii cleaned with
    | some (a, op, b) => evalMatched a op b
    | none => evalFallback cleaned

/-- The post-normalization stage (source lines 56-138): first two-operand
search on the normalized text, else the cleaned-text stage. -/
def normalizedStage (t : Chars) : Option ℚ :=
  match searchExpr opsFull t with
  | some (a, op, b) => evalMatched a op b
  | none => cleanedStage t

/-- Model of `parse_and_solve_math` (ocr/math_solver.py).  The outer
`try`/`except` wrapper maps any internal error to `None`; each fallible
step is already total here, with `eval` errors handled at their catch
site, so the wrapper is the identity on this model. -/
def parse_and_solve_math (text : String) : Option ℚ :=
  let cs := text.toList
  if cs = [] then none
  else
    match arrayBranch cs with
    | some v => some v
    | none => normalizedStage (normalize cs)

/-- Canonical rendering of a successful result (model of
handlers/math_challenge.py line 192: `str(int(answer)) if
answer.is_integer() else str(answer)`).  Non-integral results render the
float at full precision in Python; the claims only evaluate the integral
case, the non-integral case is rendered as the rational's string. -/
def renderAnswer (q : ℚ) : String :=
  if q.den = 1 then toString q.num else toString q

/-- The mathematically correct value of a two-operand expression, written
from the spec's words for comparison with the code's result. -/
def mathValue (x : ℚ) (op : Char) (y : ℚ) : ℚ :=
  if op = '+' then x + y
  else if op = '-' then x - y
  else if op = '*' then x * y
  else if op = '/' then x / y
  else 0

/-! ## Rate model (config/settings.py lines 43-60) -/

/-- Seconds to wait before deleting a message (settings.py line 43). -/
def DELETE_WAIT_TIME : ℚ := 1

/-- Base minimum delay per mode (settings.py lines 45-52). -/
def base_min_delay (slowMode : Bool) : ℚ :=
  if slowMode then 327 / 100 else 24

/-- Base maximum delay per mode (settings.py lines 45-52). -/
def base_max_delay (slowMode : Bool) : ℚ :=
  if slowMode then 4 else 36

/-- Derived minimum message delay (settings.py lines 55-60). -/
def MIN_MESSAGE_DELAY (slowMode autoDelete : Bool) : ℚ :=
  if autoDelete then max (1 / 10) (base_min_delay slowMode - DELETE_WAIT_TIME)
  else base_min_delay slowMode

/-- Derived maximum message delay (settings.py lines 55-60). -/
def MAX_MESSAGE_DELAY (slowMode autoDelete : Bool) : ℚ :=
  if autoDelete then max (1 / 10) (base_max_delay slowMode - DELETE_WAIT_TIME)
  else base_max_delay slowMode

/-! ## Bonus loop (services/bonus_sender.py) -/

/-- Minimum seconds between bonus messages (settings.py line 20). -/
def BONUS_INTERVAL_MIN : ℚ := 181

/-- Maximum seconds between bonus messages (settings.py line 21). -/
def BONUS_INTERVAL_MAX : ℚ := 300

/-- Model of Python `round(x, 2)`.  Mathlib `round` rounds half up while
Python rounds half to even; they agree except at exact half-cent values,
which no stated property depends on. -/
def round2 (x : ℚ) : ℚ := (round (x * 100) : ℤ) / 100

/-- Model of `_get_random_interval` (bonus_sender.py lines 40-52):
`random.uniform(MIN, MAX)` is `MIN + u * (MAX - MIN)` for a uniform draw
`u ∈ [0, 1]`, rounded to two decimal places. -/
def get_random_interval (u : ℚ) : ℚ :=
  round2 (BONUS_INTERVAL_MIN + u * (BONUS_INTERVAL_MAX - BONUS_INTERVAL_MIN))

/-- Sleep-time computation of one bonus-loop cycle (bonus_sender.py lines
86-92): `next_interval - (now - last_send_time)`, clamped at zero. -/
def bonus_sleep_time (next_interval now last_send : ℚ) : ℚ :=
  let sleep_time := next_interval - (now - last_send)
  if sleep_time ≤ 0 then 0 else sleep_time

/-! ## Pacing worker (services/message_worker.py)

The worker loop is modelled as an event-trace interpreter.  Each read of
`running_flag` is a `check` event carrying the running count of flag reads
(the flag is modelled as a function of that count); each word send is a
`send` event annotated with the number of flag reads that precede it.
Flag reads happen at the loop head (line 35), and once per ≈0.5 s slice
of the pacing sleep (line 90); the 1-second dequeue timeout (line 44)
returns to the loop head, producing a flag read per timeout.  The
`event_loop` guard at line 38 is modelled as always available, and a
failed send still produces its `send` event (the error is logged and the
sleep still happens, lines 62-63). -/

/-- A queue item: a word message (with the number of 0.5 s slices its
pacing sleep will take), a non-word item (no send, no sleep), or the
`None` shutdown sentinel. -/
inductive QItem where
  | word (slices : ℕ)
  | other
  | poison
deriving DecidableEq, Repr

/-- Worker events: a flag read (with its index and outcome) or a word
send (with the number of flag reads that precede it). -/
inductive WEv where
  | check (idx : ℕ) (val : Bool)
  | send (preChecks : ℕ)
deriving DecidableEq, Repr

/-- The interruptible pacing sleep (message_worker.py lines 88-93): one
flag read per 0.5 s slice; a cleared flag ends the sleep early.  Returns
the events and the new flag-read count. -/
def sleepChecks (flag : ℕ → Bool) : ℕ → ℕ → List WEv × ℕ
  | ctr, 0 => ([], ctr)
  | ctr, s + 1 =>
    if flag ctr then
      let p := sleepChecks flag (ctr + 1) s
      (WEv.check ctr true :: p.1, p.2)
    else ([WEv.check ctr false], ctr + 1)

/-- The worker loop (message_worker.py lines 35-99) as an event trace.
`fuel` bounds the number of iterations (the trace shape, not its length,
carries the verified properties); `ctr` counts flag reads so far. -/
def workerTrace (flag : ℕ → Bool) : ℕ → ℕ → List QItem → List WEv
  | 0, _, _ => []
  | fuel + 1, ctr, q =>
    if flag ctr then
      WEv.check ctr true ::
        (match q with
         | [] => workerTrace flag fuel (ctr + 1) []
         | QItem.poison :: _ => []
         | QItem.other :: rest => workerTrace flag fuel (ctr + 1) rest
         | QItem.word s :: rest =>
           let p := sleepChecks flag (ctr + 1) s
           WEv.send (ctr + 1) :: p.1 ++ workerTrace flag fuel p.2 rest)
    else [WEv.check ctr false]

/-- The flag of the stop scenario: reads up to the `clear`-th return
`true`, later reads return `false` (shutdown clears the flag once; no
writer sets it back). -/
def clearedAt (clear : ℕ) : ℕ → Bool := fun i => decide (i < clear)

/-- Number of send events whose annotation satisfies `p`. -/
def countSends (p : ℕ → Bool) (tr : List WEv) : ℕ :=
  tr.countP fun e => match e with
    | WEv.send k => p k
    | WEv.check _ _ => false

/-! ## Messaging (telegram/messaging.py) -/

/-- Outcome of the single transport `send_message` call: success, a
`FloodWaitError` carrying the required wait, or another exception. -/
inductive SendOutcome where
  | ok
  | floodWait (seconds : ℕ)
  | otherError
deriving DecidableEq, Repr

/-- Observable transport-facing actions of a send function. -/
inductive TAct where
  | attemptSend
  | wait (seconds : ℕ)
deriving DecidableEq, Repr

/-- Model of `send_message_to_group` (messaging.py lines 11-36): the
action trace and the returned value (`true` = a message object).  On
`FloodWaitError` it waits `e.seconds` and returns `None` — there is no
second send attempt in the source. -/
def send_message_to_group (groupSet : Bool) (outcome : SendOutcome) :
    List TAct × Bool :=
  if groupSet then
    match outcome with
    | .ok => ([.attemptSend], true)
    | .floodWait s => ([.attemptSend, .wait s], false)
    | .otherError => ([.attemptSend], false)
  else ([], false)

/-- Model of `send_bonus_message` (messaging.py lines 39-64): same shape;
returns `False` after the flood wait, without retrying. -/
def send_bonus_message (groupSet : Bool) (outcome : SendOutcome) :
    List TAct × Bool :=
  if groupSet then
    match outcome with
    | .ok => ([.attemptSend], true)
    | .floodWait s => ([.attemptSend, .wait s], false)
    | .otherError => ([.attemptSend], false)
  else ([], false)

/-! ## Event router (handlers/message_handler.py) -/

/-- The inbound-event fields the router inspects. -/
structure MsgEvent where
  chatId : Option ℤ
  messageText : String
  rawText : String
  hasPhoto : Bool
  hasDocument : Bool
  senderUsername : Option String
deriving DecidableEq, Repr

/-- Spawned handler tasks. -/
inductive HTask where
  | challenge
  | box
deriving DecidableEq, Repr

/-- Model of `normalize_chat_id` (message_handler.py lines 69-83):
supergroup IDs (negative, magnitude above 10^12) have the `-100` prefix
stripped; otherwise the absolute value is used. -/
def normalize_chat_id : Option ℤ → Option ℤ
  | none => none
  | some cid =>
    if cid < 0 ∧ 1000000000000 < (cid.natAbs : ℤ) then
      some ((cid.natAbs : ℤ) - 1000000000000)
    else some (cid.natAbs : ℤ)

/-- Substring containment, the model of Python `in` on strings. -/
def containsStr (s pat : String) : Bool := containsSub pat.toList s.toList

/-- The challenge keyword (message_handler.py line 152). -/
def challengeKeyword : String := "چالش"

/-- The box keyword (message_handler.py line 183). -/
def boxKeyword : String := "جعبه"

/-- Effective message text (message_handler.py lines 134-136): the
message text, falling back to `raw_text` when empty. -/
def effectiveText (ev : MsgEvent) : String :=
  if ev.messageText ≠ "" then ev.messageText else ev.rawText

/-- Model of the router `handle_new_message` (message_handler.py lines
68-199): group filter on normalized chat IDs, optional sender filter,
then the challenge dispatch (keyword, else photo/document) and the box
dispatch (keyword).  Returns the spawned tasks in dispatch order.  The
client-connection plumbing at lines 38-61 is transport glue and is not
part of the routing decision. -/
def handle_new_message (enableMath enableBox : Bool) (senderFilter : String)
    (groupId : Option ℤ) (ev : MsgEvent) : List HTask :=
  match groupId with
  | none => []
  | some gid =>
    if normalize_chat_id ev.chatId ≠ normalize_chat_id (some gid) then []
    else if senderFilter != "" &&
        (match ev.senderUsername with
         | none => true
         | some u => u != senderFilter) then []
    else
      let text := effectiveText ev
      let hasPhoto := ev.hasPhoto || ev.hasDocument
      let challengeTasks : List HTask :=
        if enableMath then
          if containsStr text challengeKeyword then [HTask.challenge]
          else if hasPhoto then [HTask.challenge]
          else []
        else []
      let boxTasks : List HTask :=
        if enableBox then
          if containsStr text boxKeyword then [HTask.box] else []
        else []
      challengeTasks ++ boxTasks

/-- The head of the list, if any, is not an ASCII digit. -/
def headNotDigit : Chars → Prop
  | [] => True
  | c :: _ => isDigitA c = false

/-- The head of the list, if any, is neither a digit nor a dot, so a
preceding numeric literal cannot extend into it. -/
def sepOK : Chars → Prop
  | [] => True
  | c :: _ => isDigitA c = false ∧ c ≠ '.'

/-- The head of the list, if any, is not whitespace. -/
def headNotWS : Chars → Prop
  | [] => True
  | c :: _ => isWS c = false

/-! ## Theorems -/

lemma digit_not_ws {c : Char} (h : isDigitA c = true) : isWS c = false := by
  simp only [isDigitA, Bool.and_eq_true, decide_eq_true_eq] at h
  obtain ⟨h1, h2⟩ := h
  have e1 : c ≠ ' ' := by intro e; subst e; revert h1; decide
  have e2 : c ≠ '\t' := by intro e; subst e; revert h1; decide
  have e3 : c ≠ '\r' := by intro e; subst e; revert h1; decide
  have e4 : c ≠ '\n' := by intro e; subst e; revert h1; decide
  simp [isWS, Char.isWhitespace, e1, e2, e3, e4]

lemma digit_ne {c d : Char} (h : isDigitA c = true) (hd : isDigitA d = false) :
    c ≠ d := by
  intro e
  subst e
  simp [h] at hd

lemma takeDigits_append (ds rest : Chars) (hds : ∀ c ∈ ds, isDigitA c = true)
    (hrest : headNotDigit rest) : takeDigits (ds ++ rest) = (ds, rest) := by
  induction ds with
  | nil =>
    cases rest with
    | nil => rfl
    | cons c t =>
      have hc : isDigitA c = false := hrest
      simp [takeDigits, hc]
  | cons d ds ih =>
    have hd : isDigitA d = true := hds d (List.mem_cons_self _ _)
    simp [takeDigits, hd, ih (fun c hc => hds c (List.mem_cons_of_mem _ hc))]

lemma dropWhile_ws_append (sp rest : Chars) (hsp : ∀ c ∈ sp, isWS c = true)
    (hrest : headNotWS rest) : (sp ++ rest).dropWhile isWS = rest := by
  induction sp with
  | nil =>
    cases rest with
    | nil => rfl
    | cons c t =>
      have hc : isWS c = false := hrest
      simp [List.dropWhile_cons, hc]
  | cons c sp ih =>
    have hc : isWS c = true := hsp c (List.mem_cons_self _ _)
    simp only [List.cons_append, List.dropWhile_cons, hc, if_true]
    exact ih (fun d hd => hsp d (List.mem_cons_of_mem _ hd))

lemma WF_spec (n : NumLit) (h : n.WF = true) :
    n.ip ≠ [] ∧ (∀ c ∈ n.ip, isDigitA c = true) ∧
      ∀ f, n.fp = some f → f ≠ [] ∧ ∀ c ∈ f, isDigitA c = true := by
  unfold NumLit.WF at h
  cases hf : n.fp with
  | none =>
    rw [hf] at h
    simp only [Bool.and_true, Bool.and_eq_true, Bool.not_eq_true',
      List.isEmpty_eq_false, List.all_eq_true] at h
    exact ⟨h.1, h.2, fun f hff => Option.noConfusion hff⟩
  | some f =>
    rw [hf] at h
    simp only [Bool.and_eq_true, Bool.not_eq_true', List.isEmpty_eq_false,
      List.all_eq_true] at h
    refine ⟨h.1.1, h.1.2, fun g hg => ?_⟩
    cases hg
    exact ⟨h.2.1, h.2.2⟩

lemma scanNumber_render (n : NumLit) (rest : Chars) (hn : n.WF = true)
    (hrest : sepOK rest) : scanNumber (n.render ++ rest) = some (n, rest) := by
  obtain ⟨hip, hipd, hfp⟩ := WF_spec n hn
  have hrestd : headNotDigit rest := by
    cases rest with
    | nil => trivial
    | cons c t => exact hrest.1
  cases hf : n.fp with
  | none =>
    have hrender : n.render = n.ip := by
      unfold NumLit.render
      rw [hf, List.append_nil]
    rw [hrender]
    unfold scanNumber
    rw [takeDigits_append n.ip rest hipd hrestd]
    simp only [if_neg hip]
    cases hrest2 : rest with
    | nil =>
      simp only []
      rw [show ({ ip := n.ip, fp := none } : NumLit) = n from by
        cases n; simp_all]
    | cons c t =>
      have hcdot : c ≠ '.' := (hrest2 ▸ hrest).2
      simp only [if_neg hcdot]
      rw [show ({ ip := n.ip, fp := none } : NumLit) = n from by
        cases n; simp_all]
  | some f =>
    obtain ⟨hfne, hfd⟩ := hfp f hf
    have hrender : n.render = n.ip ++ ('.' :: f) := by
      unfold NumLit.render
      rw [hf]
    rw [hrender, List.append_assoc, List.cons_append]
    unfold scanNumber
    rw [takeDigits_append n.ip ('.' :: (f ++ rest)) hipd
      (show isDigitA '.' = false from by decide)]
    simp only [if_neg hip, if_pos rfl]
    rw [takeDigits_append f rest hfd hrestd]
    simp only [if_neg hfne]
    rw [show ({ ip := n.ip, fp := some f } : NumLit) = n from by
      cases n; simp_all]
    simp

lemma takeDigits_digits (cs : Chars) : ∀ c ∈ (takeDigits cs).1, isDigitA c = true := by
  induction cs with
  | nil => intro c hc; cases hc
  | cons d t ih =>
    intro c hc
    by_cases hd : isDigitA d = true
    · rw [takeDigits] at hc
      simp only [hd, if_true] at hc
      rcases List.mem_cons.mp hc with e | hc2
      · rw [e]; exact hd
      · exact ih c hc2
    · rw [takeDigits] at hc
      simp only [hd, Bool.false_eq_true, if_false] at hc
      cases hc

lemma scanNumber_WF {cs : Chars} {n : NumLit} {r : Chars}
    (h : scanNumber cs = some (n, r)) : n.WF = true := by
  unfold scanNumber at h
  dsimp only [] at h
  split at h
  · cases h
  · rename_i hip
    split at h
    · rename_i c r2 heq
      split at h
      · split at h
        · injection h with h2
          obtain ⟨e1, _⟩ := Prod.mk.inj h2
          subst e1
          simp [NumLit.WF, List.isEmpty_eq_false, hip, List.all_eq_true]
          exact fun c hc => takeDigits_digits cs c hc
        · rename_i hq
          injection h with h2
          obtain ⟨e1, _⟩ := Prod.mk.inj h2
          subst e1
          simp [NumLit.WF, List.isEmpty_eq_false, hip, hq, List.all_eq_true]
          exact ⟨fun c hc => takeDigits_digits cs c hc,
            fun c hc => takeDigits_digits r2 c hc⟩
      · injection h with h2
        obtain ⟨e1, _⟩ := Prod.mk.inj h2
        subst e1
        simp [NumLit.WF, List.isEmpty_eq_false, hip, List.all_eq_true]
        exact fun c hc => takeDigits_digits cs c hc
    · injection h with h2
      obtain ⟨e1, _⟩ := Prod.mk.inj h2
      subst e1
      simp [NumLit.WF, List.isEmpty_eq_false, hip, List.all_eq_true]
      exact fun c hc => takeDigits_digits cs c hc

lemma matchExprAt_spec {ops : List Char} {cs : Chars} {a : NumLit} {op : Char}
    {b : NumLit} {r : Chars} (h : matchExprAt ops cs = some (a, op, b, r)) :
    a.WF = true ∧ b.WF = true ∧ op ∈ ops := by
  unfold matchExprAt at h
  split at h
  · cases h
  · rename_i n1 r1 hscan1
    split at h
    · cases h
    · rename_i o r2 hdrop
      split at h
      · rename_i hmem
        split at h
        · rename_i n2 r3 hscan2
          injection h with h2
          obtain ⟨e1, e2⟩ := Prod.mk.inj h2
          obtain ⟨e3, e4⟩ := Prod.mk.inj e2
          obtain ⟨e5, _⟩ := Prod.mk.inj e4
          subst e1
          subst e3
          subst e5
          exact ⟨scanNumber_WF hscan1, scanNumber_WF hscan2, hmem⟩
        · cases h
      · cases h

lemma searchExpr_spec {ops : List Char} {cs : Chars} {a : NumLit} {op : Char}
    {b : NumLit} (h : searchExpr ops cs = some (a, op, b)) :
    a.WF = true ∧ b.WF = true ∧ op ∈ ops := by
  induction cs with
  | nil => cases h
  | cons c t ih =>
    unfold searchExpr at h
    split at h
    · rename_i n1 o n2 r hm
      injection h with h2
      obtain ⟨e1, e2⟩ := Prod.mk.inj h2
      obtain ⟨e3, e5⟩ := Prod.mk.inj e2
      subst e1
      subst e3
      subst e5
      exact matchExprAt_spec hm
    · exact ih h

lemma render_headNotWS (n : NumLit) (hn : n.WF = true) : headNotWS n.render := by
  obtain ⟨hip, hipd, _⟩ := WF_spec n hn
  unfold NumLit.render
  cases hcs : n.ip with
  | nil => exact absurd hcs hip
  | cons c t =>
    have : isDigitA c = true := hipd c (by rw [hcs]; exact List.mem_cons_self _ _)
    exact digit_not_ws this

lemma render_ne_nil (n : NumLit) (hn : n.WF = true) : n.render ≠ [] := by
  obtain ⟨hip, _, _⟩ := WF_spec n hn
  unfold NumLit.render
  intro h
  exact hip (List.append_eq_nil.mp h).1

lemma matchExprAt_render (ops : List Char) (a b : NumLit) (op : Char)
    (sp1 sp2 : Chars) (ha : a.WF = true) (hb : b.WF = true) (hop : op ∈ ops)
    (hopd : isDigitA op = false) (hopdot : op ≠ '.') (hopws : isWS op = false)
    (hsp1 : ∀ c ∈ sp1, c = ' ') (hsp2 : ∀ c ∈ sp2, c = ' ') :
    matchExprAt ops (a.render ++ (sp1 ++ op :: (sp2 ++ b.render)))
      = some (a, op, b, []) := by
  have hsep : sepOK (sp1 ++ op :: (sp2 ++ b.render)) := by
    cases sp1 with
    | nil => exact ⟨hopd, hopdot⟩
    | cons c t =>
      have hc : c = ' ' := hsp1 c (List.mem_cons_self _ _)
      rw [List.cons_append, hc]
      exact ⟨by decide, by decide⟩
  unfold matchExprAt
  rw [scanNumber_render a _ ha hsep]
  dsimp only
  rw [dropWhile_ws_append sp1 (op :: (sp2 ++ b.render))
    (fun c hc => by rw [hsp1 c hc]; decide) hopws]
  simp only [if_pos hop]
  rw [dropWhile_ws_append sp2 b.render
    (fun c hc => by rw [hsp2 c hc]; decide) (render_headNotWS b hb)]
  have hb2 := scanNumber_render b [] hb trivial
  rw [List.append_nil] at hb2
  rw [hb2]

lemma searchExpr_of_matchAt {ops : List Char} {cs : Chars} {a : NumLit}
    {op : Char} {b : NumLit} {r : Chars} (hne : cs ≠ [])
    (hm : matchExprAt ops cs = some (a, op, b, r)) :
    searchExpr ops cs = some (a, op, b) := by
  cases cs with
  | nil => exact absurd rfl hne
  | cons c t =>
    unfold searchExpr
    rw [hm]

lemma replaceChar_id (o n : Char) (cs : Chars) (h : o ∉ cs) :
    replaceChar o n cs = cs := by
  induction cs with
  | nil => rfl
  | cons c t ih =>
    have hc : c ≠ o := fun e => h (e ▸ List.mem_cons_self _ _)
    simp only [replaceChar, List.map_cons, if_neg hc]
    have := ih fun hm => h (List.mem_cons_of_mem _ hm)
    simp only [replaceChar] at this
    rw [this]

lemma dropCharAll_id (o : Char) (cs : Chars) (h : o ∉ cs) :
    dropCharAll o cs = cs := by
  unfold dropCharAll
  apply List.filter_eq_self.mpr
  intro c hc
  simp only [ne_eq, decide_eq_true_eq]
  exact fun e => h (e ▸ hc)

lemma dropCharAll_append (o : Char) (l1 l2 : Chars) :
    dropCharAll o (l1 ++ l2) = dropCharAll o l1 ++ dropCharAll o l2 :=
  List.filter_append _ _

lemma removeDD_id (cs : Chars) (h : '$' ∉ cs) : removeDollarDollar cs = cs := by
  induction cs with
  | nil => rfl
  | cons c t ih =>
    cases t with
    | nil => rfl
    | cons c2 t2 =>
      have hc : c ≠ '$' := fun e => h (e ▸ List.mem_cons_self _ _)
      rw [removeDollarDollar, if_neg (fun hand => hc hand.1)]
      rw [ih fun hm => h (List.mem_cons_of_mem _ hm)]

lemma splitFirstSub_none {p : Char} {ps cs : Chars} (h : p ∉ cs) :
    splitFirstSub (p :: ps) cs = none := by
  induction cs with
  | nil => rfl
  | cons c t ih =>
    have hc : p ≠ c := fun e => h (e ▸ List.mem_cons_self _ _)
    unfold splitFirstSub
    rw [show startsWith (p :: ps) (c :: t) = false from by
      unfold startsWith; rw [if_neg hc]]
    simp only [Bool.false_eq_true, if_false]
    rw [ih fun hm => h (List.mem_cons_of_mem _ hm)]

lemma removeArrayBlocksAux_id (fuel : ℕ) (cs : Chars) (h : '\\' ∉ cs) :
    removeArrayBlocksAux fuel cs = cs := by
  cases fuel with
  | zero => rfl
  | succ fuel =>
    unfold removeArrayBlocksAux
    rw [show splitFirstSub beginTok cs = none from splitFirstSub_none h]

lemma removeArrayBlocks_id (cs : Chars) (h : '\\' ∉ cs) :
    removeArrayBlocks cs = cs :=
  removeArrayBlocksAux_id cs.length cs h

lemma latexArrayDetected_false (cs : Chars) (h : '\\' ∉ cs) :
    latexArrayDetected cs = false := by
  unfold latexArrayDetected
  rw [show splitFirstSub beginTok cs = none from splitFirstSub_none h]

lemma arrayBranch_none_of_no_backslash (cs : Chars) (h : '\\' ∉ cs) :
    arrayBranch cs = none := by
  unfold arrayBranch
  rw [latexArrayDetected_false cs h]
  simp

lemma headNotWS_append {A X : Chars} (hA : headNotWS A) (hne : A ≠ []) :
    headNotWS (A ++ X) := by
  cases A with
  | nil => exact absurd rfl hne
  | cons c t => exact hA

lemma rev_headNotWS {l : Chars} (hne : l ≠ []) (hd : ∀ c ∈ l, isDigitA c = true) :
    headNotWS l.reverse := by
  cases hrev : l.reverse with
  | nil => exact absurd (by simpa using congrArg List.reverse hrev) hne
  | cons c t =>
    have hc : c ∈ l := by
      rw [← List.mem_reverse, hrev]
      exact List.mem_cons_self _ _
    exact digit_not_ws (hd c hc)

lemma render_rev_headNotWS (n : NumLit) (hn : n.WF = true) :
    headNotWS n.render.reverse := by
  obtain ⟨hip, hipd, hfp⟩ := WF_spec n hn
  cases hf : n.fp with
  | none =>
    rw [show n.render = n.ip from by unfold NumLit.render; rw [hf, List.append_nil]]
    exact rev_headNotWS hip hipd
  | some f =>
    obtain ⟨hfne, hfd⟩ := hfp f hf
    rw [show n.render = n.ip ++ ('.' :: f) from by unfold NumLit.render; rw [hf]]
    rw [List.reverse_append, List.reverse_cons, List.append_assoc]
    exact headNotWS_append (rev_headNotWS hfne hfd)
      (by simp [hfne])

lemma render_chars (n : NumLit) (hn : n.WF = true) :
    ∀ c ∈ n.render, isDigitA c = true ∨ c = '.' := by
  intro c hc
  obtain ⟨hip, hipd, hfp⟩ := WF_spec n hn
  unfold NumLit.render at hc
  rcases List.mem_append.mp hc with hc | hc
  · exact Or.inl (hipd c hc)
  · cases hf : n.fp with
    | none => rw [hf] at hc; cases hc
    | some f =>
      rw [hf] at hc
      rcases List.mem_cons.mp hc with e | hc2
      · exact Or.inr e
      · exact Or.inl ((hfp f hf).2 c hc2)

lemma opsAscii_spec {op : Char} (h : op ∈ opsAscii) :
    isDigitA op = false ∧ op ≠ '.' ∧ isWS op = false ∧ op ∈ opsFull := by
  simp only [opsAscii, List.mem_cons, List.not_mem_nil, or_false] at h
  rcases h with e | e | e | e <;> subst e <;>
    exact ⟨by decide, by decide, by decide, by decide⟩

lemma core_not_mem (a b : NumLit) (op : Char) (sp1 sp2 : Chars)
    (ha : a.WF = true) (hb : b.WF = true) (hop : op ∈ opsAscii)
    (hsp1 : ∀ c ∈ sp1, c = ' ') (hsp2 : ∀ c ∈ sp2, c = ' ') (d : Char)
    (hd : isDigitA d = false) (hdot : d ≠ '.') (hspc : d ≠ ' ')
    (hops : d ∉ opsAscii) :
    d ∉ a.render ++ (sp1 ++ op :: (sp2 ++ b.render)) := by
  intro hm
  have hrend : ∀ (n : NumLit), n.WF = true → d ∈ n.render → False := by
    intro n hn hdm
    rcases render_chars n hn d hdm with h | h
    · rw [h] at hd; cases hd
    · exact hdot h
  rcases List.mem_append.mp hm with hm | hm
  · exact hrend a ha hm
  rcases List.mem_append.mp hm with hm | hm
  · exact hspc (hsp1 d hm)
  rcases List.mem_cons.mp hm with e | hm
  · exact hops (e ▸ hop)
  rcases List.mem_append.mp hm with hm | hm
  · exact hspc (hsp2 d hm)
  · exact hrend b hb hm

lemma stripWS_append_core (core tail : Chars) (h1 : headNotWS core)
    (h2 : headNotWS core.reverse) (h3 : ∀ c ∈ tail, isWS c = true) :
    stripWS (core ++ tail) = core := by
  cases core with
  | nil =>
    unfold stripWS
    rw [List.nil_append]
    rw [show tail.dropWhile isWS = [] from
      List.dropWhile_eq_nil_iff.mpr fun c hc => h3 c hc]
    rfl
  | cons c t =>
    unfold stripWS
    have hc : isWS c = false := h1
    rw [List.cons_append, List.dropWhile_cons, hc]
    simp only [Bool.false_eq_true, if_false]
    rw [show (c :: (t ++ tail)) = (c :: t) ++ tail from rfl]
    rw [List.reverse_append]
    rw [dropWhile_ws_append tail.reverse ((c :: t).reverse)
      (fun d hd => h3 d (List.mem_reverse.mp hd)) h2]
    exact List.reverse_reverse _

lemma normalize_render (a b : NumLit) (op : Char) (sp1 sp2 suffix : Chars)
    (ha : a.WF = true) (hb : b.WF = true) (hop : op ∈ opsAscii)
    (hsp1 : ∀ c ∈ sp1, c = ' ') (hsp2 : ∀ c ∈ sp2, c = ' ')
    (hsuf : ∀ c ∈ suffix, c ∈ ([' ', '=', '?'] : List Char)) :
    normalize (a.render ++ (sp1 ++ op :: (sp2 ++ (b.render ++ suffix))))
      = a.render ++ (sp1 ++ op :: (sp2 ++ b.render)) := by
  set core := a.render ++ (sp1 ++ op :: (sp2 ++ b.render)) with hcore
  have hW : a.render ++ (sp1 ++ op :: (sp2 ++ (b.render ++ suffix)))
      = core ++ suffix := by
    rw [hcore]
    simp [List.append_assoc]
  rw [hW]
  have hcorenm : ∀ d : Char, isDigitA d = false → d ≠ '.' → d ≠ ' ' →
      d ∉ opsAscii → d ∉ core :=
    fun d h1 h2 h3 h4 =>
      core_not_mem a b op sp1 sp2 ha hb hop hsp1 hsp2 d h1 h2 h3 h4
  have hsufm : ∀ c ∈ suffix, c = ' ' ∨ c = '=' ∨ c = '?' := by
    intro c hc
    simpa using hsuf c hc
  have hnm : ∀ d : Char, isDigitA d = false → d ≠ '.' → d ≠ ' ' →
      d ∉ opsAscii → d ≠ '=' → d ≠ '?' → d ∉ core ++ suffix := by
    intro d h1 h2 h3 h4 h5 h6 hm
    rcases List.mem_append.mp hm with hm | hm
    · exact hcorenm d h1 h2 h3 h4 hm
    · rcases hsufm d hm with e | e | e
      · exact h3 e
      · exact h5 e
      · exact h6 e
  unfold normalize
  rw [replaceChar_id '×' '*' _
    (hnm '×' (by decide) (by decide) (by decide) (by decide) (by decide) (by decide))]
  rw [replaceChar_id '÷' '/' _
    (hnm '÷' (by decide) (by decide) (by decide) (by decide) (by decide) (by decide))]
  rw [dropCharAll_append '=' core suffix]
  rw [dropCharAll_id '=' core
    (hcorenm '=' (by decide) (by decide) (by decide) (by decide))]
  rw [dropCharAll_append '?' core (dropCharAll '=' suffix)]
  rw [dropCharAll_id '?' core
    (hcorenm '?' (by decide) (by decide) (by decide) (by decide))]
  have hT2s : ∀ c ∈ dropCharAll '?' (dropCharAll '=' suffix), c = ' ' := by
    intro c hc
    unfold dropCharAll at hc
    simp only [List.mem_filter, ne_eq, decide_eq_true_eq] at hc
    obtain ⟨⟨hcs, hne⟩, hnq⟩ := hc
    rcases hsufm c hcs with e | e | e
    · exact e
    · exact absurd e hne
    · exact absurd e hnq
  have hnm2 : ∀ d : Char, isDigitA d = false → d ≠ '.' → d ≠ ' ' →
      d ∉ opsAscii → d ∉ core ++ dropCharAll '?' (dropCharAll '=' suffix) := by
    intro d h1 h2 h3 h4 hm
    rcases List.mem_append.mp hm with hm | hm
    · exact hcorenm d h1 h2 h3 h4 hm
    · exact h3 (hT2s d hm)
  rw [replaceChar_id 'x' '*' _
    (hnm2 'x' (by decide) (by decide) (by decide) (by decide))]
  rw [replaceChar_id 'X' '*' _
    (hnm2 'X' (by decide) (by decide) (by decide) (by decide))]
  rw [removeDD_id _ (hnm2 '$' (by decide) (by decide) (by decide) (by decide))]
  rw [removeArrayBlocks_id _
    (hnm2 '\\' (by decide) (by decide) (by decide) (by decide))]
  have hcorehead : headNotWS core := by
    rw [hcore]
    exact headNotWS_append (render_headNotWS a ha) (render_ne_nil a ha)
  have hcorerev : headNotWS core.reverse := by
    have e : core = ((a.render ++ sp1) ++ (op :: sp2)) ++ b.render := by
      rw [hcore]
      simp [List.append_assoc]
    rw [e, List.reverse_append]
    exact headNotWS_append (render_rev_headNotWS b hb)
      (by simpa using render_ne_nil b hb)
  exact stripWS_append_core core _ hcorehead hcorerev
    (fun c hc => by rw [hT2s c hc]; decide)

set_option maxHeartbeats 1000000 in
lemma parse_render_core (a b : NumLit) (op : Char) (sp1 sp2 suffix : Chars)
    (ha : a.WF = true) (hb : b.WF = true) (hop : op ∈ opsAscii)
    (hsp1 : ∀ c ∈ sp1, c = ' ') (hsp2 : ∀ c ∈ sp2, c = ' ')
    (hsuf : ∀ c ∈ suffix, c ∈ ([' ', '=', '?'] : List Char)) :
    parse_and_solve_math ⟨a.render ++ (sp1 ++ op :: (sp2 ++ (b.render ++ suffix)))⟩
      = evalMatched a op b := by
  obtain ⟨hopd, hopdot, hopws, hopfull⟩ := opsAscii_spec hop
  have hne : a.render ++ (sp1 ++ op :: (sp2 ++ (b.render ++ suffix))) ≠ [] := by
    intro h
    exact render_ne_nil a ha (List.append_eq_nil.mp h).1
  have hback : '\\' ∉ a.render ++ (sp1 ++ op :: (sp2 ++ (b.render ++ suffix))) := by
    intro hm
    have hW : a.render ++ (sp1 ++ op :: (sp2 ++ (b.render ++ suffix)))
        = (a.render ++ (sp1 ++ op :: (sp2 ++ b.render))) ++ suffix := by
      simp [List.append_assoc]
    rw [hW] at hm
    rcases List.mem_append.mp hm with hm | hm
    · exact core_not_mem a b op sp1 sp2 ha hb hop hsp1 hsp2 '\\'
        (by decide) (by decide) (by decide) (by decide) hm
    · have := hsuf '\\' hm
      simp at this
  have step1 : parse_and_solve_math
      ⟨a.render ++ (sp1 ++ op :: (sp2 ++ (b.render ++ suffix)))⟩
      = normalizedStage (normalize
          (a.render ++ (sp1 ++ op :: (sp2 ++ (b.render ++ suffix))))) := by
    unfold parse_and_solve_math
    simp only [String.toList]
    rw [if_neg hne, arrayBranch_none_of_no_backslash _ hback]
  rw [step1, normalize_render a b op sp1 sp2 suffix ha hb hop hsp1 hsp2 hsuf]
  unfold normalizedStage
  rw [searchExpr_of_matchAt
    (by
      intro h
      exact render_ne_nil a ha (List.append_eq_nil.mp h).1)
    (matchExprAt_render opsFull a b op sp1 sp2 ha hb hopfull hopd hopdot hopws
      hsp1 hsp2)]

lemma canonOp_idem (op : Char) : canonOp (canonOp op) = canonOp op := by
  unfold canonOp
  split_ifs <;> simp_all

/-- C1: for every well-formed two-operand input `<number> <op> <number>`
(decimal numbers allowed, optional spacing, optionally followed by
`= ?`-style trailing characters) with a non-zero right operand on
division, `parse_and_solve_math` returns the mathematically correct value
of the expression. -/
theorem solve_two_operand_correct (a b : NumLit) (op : Char)
    (sp1 sp2 suffix : Chars)
    (ha : a.WF = true) (hb : b.WF = true) (hop : op ∈ opsAscii)
    (hsp1 : ∀ c ∈ sp1, c = ' ') (hsp2 : ∀ c ∈ sp2, c = ' ')
    (hsuf : ∀ c ∈ suffix, c ∈ ([' ', '=', '?'] : List Char))
    (hdiv : op = '/' → b.val ≠ 0) :
    parse_and_solve_math ⟨a.render ++ (sp1 ++ op :: (sp2 ++ (b.render ++ suffix)))⟩
      = some (mathValue a.val op b.val) := by
  rw [parse_render_core a b op sp1 sp2 suffix ha hb hop hsp1 hsp2 hsuf]
  simp only [opsAscii, List.mem_cons, List.not_mem_nil, or_false] at hop
  rcases hop with e | e | e | e <;> subst e
  · simp [evalMatched, canonOp, evalOpA, mathValue]
  · simp [evalMatched, canonOp, evalOpA, mathValue]
  · simp [evalMatched, canonOp, evalOpA, mathValue]
  · simp [evalMatched, canonOp, evalOpA, mathValue, hdiv rfl]

/-- Witness for C1 at the spec's concrete scenario `"12 + 3 = ?"`. -/
theorem solve_two_operand_correct_witness :
    parse_and_solve_math "12 + 3 = ?" = some 15 := by
  have h := solve_two_operand_correct ⟨['1', '2'], none⟩ ⟨['3'], none⟩ '+'
      [' '] [' '] [' ', '=', ' ', '?'] (by decide) (by decide) (by decide)
      (by decide) (by decide) (by decide) (fun e => absurd e (by decide))
  rw [show (⟨(⟨['1', '2'], none⟩ : NumLit).render ++
      ([' '] ++ '+' :: ([' '] ++ ((⟨['3'], none⟩ : NumLit).render ++
        [' ', '=', ' ', '?'])))⟩ : String) = "12 + 3 = ?" from by decide] at h
  rw [h]
  rw [show (⟨['1', '2'], none⟩ : NumLit).val = 12 from by
    unfold NumLit.val
    rw [show natOfDigits ['1', '2'] = 12 from by decide]
    norm_num]
  rw [show (⟨['3'], none⟩ : NumLit).val = 3 from by
    unfold NumLit.val
    rw [show natOfDigits ['3'] = 3 from by decide]
    norm_num]
  simp [mathValue]
  norm_num

/-- C4: when the matched two-operand expression is a division with right
operand of value zero, the parser returns `None` rather than an infinity,
NaN or exception — at both match sites: the search on the normalized text
(source lines 81-84, first conjunct, given the array branch did not
already return) and the search on the cleaned text (source lines 117-119,
second conjunct). -/
theorem solve_div_zero_none :
    (∀ (text : String) (a b : NumLit),
      arrayBranch text.toList = none →
      searchExpr opsFull (normalize text.toList) = some (a, '/', b) →
      b.val = 0 → parse_and_solve_math text = none) ∧
    (∀ (t : Chars) (a b : NumLit),
      searchExpr opsAscii (stripWS (t.filter keepChar)) = some (a, '/', b) →
      b.val = 0 → cleanedStage t = none) := by
  constructor
  · intro text a b harr hsearch hzero
    have hne : text.toList ≠ [] := by
      intro h
      rw [h] at hsearch
      rw [show normalize [] = [] from rfl] at hsearch
      cases hsearch
    unfold parse_and_solve_math
    rw [if_neg hne, harr]
    unfold normalizedStage
    rw [hsearch]
    unfold evalMatched canonOp evalOpA
    simp [hzero]
  · intro t a b hsearch hzero
    unfold cleanedStage
    have hne : stripWS (t.filter keepChar) ≠ [] := by
      intro h
      rw [h] at hsearch
      cases hsearch
    rw [if_neg hne, hsearch]
    unfold evalMatched canonOp evalOpA
    simp [hzero]

/-- Witness for C4 at the spec's concrete scenario `"10÷0"`. -/
theorem solve_div_zero_none_witness : parse_and_solve_math "10÷0" = none := by
  apply solve_div_zero_none.1 "10÷0" ⟨['1', '0'], none⟩ ⟨['0'], none⟩
  · decide
  · decide
  · unfold NumLit.val
    rw [show natOfDigits ['0'] = 0 from by decide]
    norm_num

/-- C8: on any input in which the LaTeX-array layout is detected with at
least two embedded braced numbers, `parse_and_solve_math` returns their
sum (the sum of both when exactly two, the sum of all otherwise). -/
theorem solve_array_sum (text : String) (ns : List ℕ)
    (hdet : latexArrayDetected text.toList = true)
    (hnums : findBracedNumbers text.toList.length text.toList = ns)
    (hlen : 2 ≤ ns.length) :
    parse_and_solve_math text = some ((ns.sum : ℕ) : ℚ) := by
  have hne : text.toList ≠ [] := by
    intro h
    rw [h] at hdet
    exact absurd hdet (by decide)
  unfold parse_and_solve_math
  rw [if_neg hne]
  have harr : arrayBranch text.toList = some ((ns.sum : ℕ) : ℚ) := by
    unfold arrayBranch
    rw [hdet]
    simp only [if_true]
    rw [hnums]
    match ns, hlen with
    | [n1, n2], _ => simp
    | n1 :: n2 :: n3 :: rest, _ => rfl
  rw [harr]

/-- Witness for C8 at the spec's concrete scenario: array markup holding
the numbers 4, 5 and 6 sums to 15. -/
theorem solve_array_sum_witness :
    parse_and_solve_math
      "\\begin\x7barray\x7d\x7b4\x7d\x7b5\x7d\x7b6\x7d\\end\x7barray\x7d"
      = some 15 := by
  have h := solve_array_sum
    "\\begin\x7barray\x7d\x7b4\x7d\x7b5\x7d\x7b6\x7d\\end\x7barray\x7d"
    [4, 5, 6] (by decide) (by decide) (by decide)
  rw [h]
  norm_num

/-- Shared concrete evaluation: the spec's scenario `"12 + 3 = ?"`
parses to 15. -/
lemma parse_concrete_example : parse_and_solve_math "12 + 3 = ?" = some 15 := by
  have h := parse_render_core ⟨['1', '2'], none⟩ ⟨['3'], none⟩ '+'
      [' '] [' '] [' ', '=', ' ', '?'] (by decide) (by decide) (by decide)
      (by decide) (by decide) (by decide)
  rw [show (⟨(⟨['1', '2'], none⟩ : NumLit).render ++
      ([' '] ++ '+' :: ([' '] ++ ((⟨['3'], none⟩ : NumLit).render ++
        [' ', '=', ' ', '?'])))⟩ : String) = "12 + 3 = ?" from by decide] at h
  rw [h]
  rw [show ∀ x y : NumLit, evalMatched x '+' y = some (x.val + y.val) from
    fun x y => rfl]
  rw [show (⟨['1', '2'], none⟩ : NumLit).val = 12 from by
    unfold NumLit.val
    rw [show natOfDigits ['1', '2'] = 12 from by decide]
    norm_num]
  rw [show (⟨['3'], none⟩ : NumLit).val = 3 from by
    unfold NumLit.val
    rw [show natOfDigits ['3'] = 3 from by decide]
    norm_num]
  norm_num

/-- C9 counterexample: the claim fails as stated.  `"12 + 3 = ?"` parses
successfully to 15, whose canonical rendering is the bare numeral `"15"`,
but re-parsing `"15"` yields `None` (no operator matches), not 15. -/
theorem solve_reparse_cex :
    parse_and_solve_math "12 + 3 = ?" = some 15 ∧
    renderAnswer 15 = "15" ∧
    parse_and_solve_math "15" = none := by
  refine ⟨parse_concrete_example, by decide, by decide⟩

/-- C9 (amended): idempotence holds at the matched-expression level, not
at the rendered-result level.  Whenever `parse_and_solve_math` succeeds
through the two-operand match `(a, op, b)`, re-parsing the canonical
rendering `a op b` of that matched expression (with the normalized
operator) yields the same numeric value; re-parsing the rendering of the
bare numeric result instead yields `None` when it contains no operator. -/
theorem solve_reparse_expression (text : String) (a : NumLit) (op : Char)
    (b : NumLit) (v : ℚ)
    (harr : arrayBranch text.toList = none)
    (hsearch : searchExpr opsFull (normalize text.toList) = some (a, op, b))
    (hv : parse_and_solve_math text = some v) :
    parse_and_solve_math
      ⟨a.render ++ ([' '] ++ canonOp op :: ([' '] ++ (b.render ++ [])))⟩
      = some v := by
  have hne : text.toList ≠ [] := by
    intro h
    rw [h] at hsearch
    rw [show normalize [] = [] from rfl] at hsearch
    cases hsearch
  have hev : evalMatched a op b = some v := by
    unfold parse_and_solve_math at hv
    rw [if_neg hne, harr] at hv
    unfold normalizedStage at hv
    rw [hsearch] at hv
    exact hv
  obtain ⟨haWF, hbWF, _⟩ := searchExpr_spec hsearch
  have hcanon : canonOp op ∈ opsAscii := by
    unfold evalMatched evalOpA at hev
    by_contra hn
    simp only [opsAscii, List.mem_cons, List.not_mem_nil, or_false, not_or] at hn
    obtain ⟨n1, n2, n3, n4⟩ := hn
    rw [if_neg n1, if_neg n2, if_neg n3, if_neg n4] at hev
    cases hev
  rw [parse_render_core a b (canonOp op) [' '] [' '] [] haWF hbWF hcanon
    (by simp) (by simp) (by simp)]
  rw [show evalMatched a (canonOp op) b = evalMatched a op b from by
    unfold evalMatched
    rw [canonOp_idem]]
  exact hev

/-- Witness for the amended C9 at the concrete input `"12 + 3 = ?"`. -/
theorem solve_reparse_expression_witness :
    parse_and_solve_math
      ⟨(⟨['1', '2'], none⟩ : NumLit).render ++
        ([' '] ++ canonOp '+' ::
          ([' '] ++ ((⟨['3'], none⟩ : NumLit).render ++ [])))⟩
      = some 15 := by
  apply solve_reparse_expression "12 + 3 = ?" ⟨['1', '2'], none⟩ '+'
    ⟨['3'], none⟩ 15
  · decide
  · decide
  · exact parse_concrete_example

/-- C5: for every combination of rate mode and auto-delete toggle the
derived delay window satisfies `0 < MIN_MESSAGE_DELAY ≤
MAX_MESSAGE_DELAY`, and with auto-delete enabled both bounds equal the
base bounds minus the fixed delete-wait duration, floored at 0.1. -/
theorem delay_window_wellformed :
    ∀ slowMode autoDelete : Bool,
      0 < MIN_MESSAGE_DELAY slowMode autoDelete ∧
      MIN_MESSAGE_DELAY slowMode autoDelete ≤ MAX_MESSAGE_DELAY slowMode autoDelete ∧
      (autoDelete = true →
        MIN_MESSAGE_DELAY slowMode autoDelete
            = max (1 / 10) (base_min_delay slowMode - DELETE_WAIT_TIME) ∧
        MAX_MESSAGE_DELAY slowMode autoDelete
            = max (1 / 10) (base_max_delay slowMode - DELETE_WAIT_TIME)) := by
  intro slowMode autoDelete
  cases slowMode <;> cases autoDelete <;> refine ⟨?_, ?_, ?_⟩ <;>
    first
      | (intro h; exact absurd h (by decide))
      | (intro h; exact ⟨rfl, rfl⟩)
      | norm_num [MIN_MESSAGE_DELAY, MAX_MESSAGE_DELAY, base_min_delay,
          base_max_delay, DELETE_WAIT_TIME, max_def]

/-- Witness for C5 at the slow-mode, auto-delete-enabled combination. -/
theorem delay_window_wellformed_witness :
    MIN_MESSAGE_DELAY true true
        = max (1 / 10) (base_min_delay true - DELETE_WAIT_TIME) ∧
    0 < MIN_MESSAGE_DELAY true true :=
  ⟨((delay_window_wellformed true true).2.2 rfl).1,
   (delay_window_wellformed true true).1⟩

/-- C6: in every bonus-loop cycle the sleep duration equals
`next_interval` minus the elapsed time since the last completed send,
clamped below at zero — equivalently the wake-up time is
`max now (last_send + next_interval)`, so a send that itself takes time
does not push later sends cumulatively later — and the freshly drawn
`next_interval` lies in the bonus interval window. -/
theorem bonus_drift_correction :
    ∀ next_interval now last_send : ℚ,
      bonus_sleep_time next_interval now last_send
          = max 0 (next_interval - (now - last_send)) ∧
      now + bonus_sleep_time next_interval now last_send
          = max now (last_send + next_interval) ∧
      ∀ u : ℚ, 0 ≤ u → u ≤ 1 →
        BONUS_INTERVAL_MIN ≤ get_random_interval u ∧
        get_random_interval u ≤ BONUS_INTERVAL_MAX := by
  intro i now last
  refine ⟨?_, ?_, ?_⟩
  · unfold bonus_sleep_time
    rcases le_or_lt (i - (now - last)) 0 with h | h
    · rw [if_pos h, max_eq_left h]
    · rw [if_neg (not_le.mpr h), max_eq_right h.le]
  · unfold bonus_sleep_time
    rcases le_or_lt (i - (now - last)) 0 with h | h
    · rw [if_pos h, max_eq_left (by linarith : last + i ≤ now), add_zero]
    · rw [if_neg (not_le.mpr h), max_eq_right (by linarith : now ≤ last + i)]
      ring
  · intro u h0 h1
    unfold get_random_interval round2 BONUS_INTERVAL_MIN BONUS_INTERVAL_MAX
    have hx1 : (18100 : ℚ) ≤ (181 + u * (300 - 181)) * 100 := by nlinarith
    have hx2 : (181 + u * (300 - 181)) * 100 ≤ 30000 := by nlinarith
    have hlo : (18100 : ℤ) ≤ round ((181 + u * (300 - 181)) * 100) := by
      rw [round_eq, Int.le_floor]
      push_cast
      linarith
    have hhi : round ((181 + u * (300 - 181)) * 100) ≤ 30000 := by
      rw [round_eq, Int.floor_le_iff]
      push_cast
      linarith
    have hlo2 : (18100 : ℚ) ≤ ((round ((181 + u * (300 - 181)) * 100) : ℤ) : ℚ) := by
      exact_mod_cast hlo
    have hhi2 : ((round ((181 + u * (300 - 181)) * 100) : ℤ) : ℚ) ≤ 30000 := by
      exact_mod_cast hhi
    constructor
    · rw [le_div_iff₀ (by norm_num : (0 : ℚ) < 100)]
      linarith
    · rw [div_le_iff₀ (by norm_num : (0 : ℚ) < 100)]
      linarith

/-- Witness for C6 at a concrete cycle and a concrete uniform draw. -/
theorem bonus_drift_correction_witness :
    BONUS_INTERVAL_MIN ≤ get_random_interval 0 ∧
    bonus_sleep_time 200 10 5 = max 0 (200 - (10 - 5)) :=
  ⟨((bonus_drift_correction 200 10 5).2.2 0 (by norm_num) (by norm_num)).1,
   (bonus_drift_correction 200 10 5).1⟩

/-- C3 counterexample: on a rate-limit signal `send_message_to_group`
(and `send_bonus_message`) perform exactly one send attempt — the claimed
retry after the wait would make two — so the claim is false at the
concrete outcome `floodWait 5`. -/
theorem flood_wait_no_retry_cex :
    (send_message_to_group true (.floodWait 5)).1.count TAct.attemptSend = 1 ∧
    ¬((send_message_to_group true (.floodWait 5)).1.count TAct.attemptSend = 2) ∧
    (send_bonus_message true (.floodWait 5)).1.count TAct.attemptSend = 1 ∧
    ¬((send_bonus_message true (.floodWait 5)).1.count TAct.attemptSend = 2) := by
  decide

/-- C3 (amended): on a rate-limit signal carrying wait duration `s`, the
sending functions wait exactly `s` seconds and then return the failure
value (`None`/`False`) without retrying: the action trace is one send
attempt followed by the wait. -/
theorem flood_wait_behaviour (s : ℕ) :
    send_message_to_group true (.floodWait s) = ([.attemptSend, .wait s], false) ∧
    send_bonus_message true (.floodWait s) = ([.attemptSend, .wait s], false) :=
  ⟨rfl, rfl⟩

/-- C10: `parse_and_solve_math` is total over its public interface: on
every input string (including the empty string) it returns `none` or a
numeric value, and every error of the guarded `eval` call is mapped to
`none` by its catch site. -/
theorem solve_total :
    parse_and_solve_math "" = none ∧
    (∀ s : String,
      parse_and_solve_math s = none ∨ ∃ q : ℚ, parse_and_solve_math s = some q) ∧
    (∀ cs : Chars, (∃ e, pyEval cs = .error e) → evalFallback cs = none) := by
  refine ⟨rfl, ?_, ?_⟩
  · intro s
    cases h : parse_and_solve_math s with
    | none => exact Or.inl rfl
    | some q => exact Or.inr ⟨q, rfl⟩
  · intro cs he
    obtain ⟨e, he⟩ := he
    unfold evalFallback
    split
    · rw [he]
    · rfl

/-- Witness for C10: a concrete syntax-error `eval` input is mapped to
`none`. -/
theorem solve_total_witness : evalFallback ['(', '+'] = none :=
  solve_total.2.2 ['(', '+'] ⟨EvalErr.synErr, rfl⟩

/-- C7: for every inbound event passing the group and sender filters with
both feature toggles enabled, a message with the challenge keyword and an
image but no box keyword spawns exactly one challenge task and no box
task, and a message with both keywords spawns exactly one of each. -/
theorem router_dispatch (senderFilter : String) (gid : ℤ) (ev : MsgEvent)
    (hgroup : normalize_chat_id ev.chatId = normalize_chat_id (some gid))
    (hsender : senderFilter = "" ∨ ev.senderUsername = some senderFilter) :
    (containsStr (effectiveText ev) challengeKeyword = true →
      (ev.hasPhoto || ev.hasDocument) = true →
      containsStr (effectiveText ev) boxKeyword = false →
      handle_new_message true true senderFilter (some gid) ev = [HTask.challenge]) ∧
    (containsStr (effectiveText ev) challengeKeyword = true →
      containsStr (effectiveText ev) boxKeyword = true →
      handle_new_message true true senderFilter (some gid) ev
          = [HTask.challenge, HTask.box]) := by
  have hs : (senderFilter != "" &&
      (match ev.senderUsername with
       | none => true
       | some u => u != senderFilter)) = false := by
    rcases hsender with h | h
    · subst h
      simp
    · rw [h]
      simp
  constructor
  · intro h1 h2 h3
    simp [handle_new_message, hgroup, hs, h1, h2, h3]
  · intro h1 h2
    simp [handle_new_message, hgroup, hs, h1, h2]

/-- Witness for C7 at a concrete event carrying both keywords. -/
theorem router_dispatch_witness :
    handle_new_message true true "" (some 5)
        ⟨some 5, "چالش جعبه", "", true, false, none⟩
      = [HTask.challenge, HTask.box] :=
  (router_dispatch "" 5 ⟨some 5, "چالش جعبه", "", true, false, none⟩ rfl
      (Or.inl rfl)).2 (by decide) (by decide)

/-- The sleep phase emits only flag reads, never sends. -/
lemma sleepChecks_no_sends (flag : ℕ → Bool) (p : ℕ → Bool) :
    ∀ s ctr, countSends p (sleepChecks flag ctr s).1 = 0 := by
  intro s
  induction s with
  | zero => intro ctr; rfl
  | succ s ih =>
    intro ctr
    unfold sleepChecks
    split
    · simpa [countSends] using ih (ctr + 1)
    · simp [countSends]

/-- The flag-read counter does not decrease across the sleep phase. -/
lemma sleepChecks_ctr_le (flag : ℕ → Bool) :
    ∀ s ctr, ctr ≤ (sleepChecks flag ctr s).2 := by
  intro s
  induction s with
  | zero => intro ctr; exact Nat.le_refl _
  | succ s ih =>
    intro ctr
    unfold sleepChecks
    split
    · exact Nat.le_trans (Nat.le_succ _) (ih (ctr + 1))
    · exact Nat.le_succ _

/-- Once the flag has been observed cleared, the worker performs no
further sends: its next flag read ends the loop. -/
lemma workerTrace_cleared (clear fuel ctr : ℕ) (q : List QItem)
    (h : clear ≤ ctr) :
    countSends (fun k => decide (clear ≤ k))
        (workerTrace (clearedAt clear) fuel ctr q) = 0 := by
  cases fuel with
  | zero => rfl
  | succ fuel =>
    have hf : clearedAt clear ctr = false := by
      simp [clearedAt]
      omega
    unfold workerTrace
    rw [hf]
    simp [countSends]

/-- C2: the pacing worker, with a stop flag cleared at read index `clear`,
performs at most one send at or after that read — so for a queue
pre-loaded with word items and the flag cleared after the first send
completes, at most one additional item is processed.  Moreover the flag
is re-read on every dequeue timeout of an empty queue and on every
≈0.5-second slice of the pacing sleep. -/
theorem worker_stop_bound :
    (∀ clear fuel ctr queue, countSends (fun k => decide (clear ≤ k))
        (workerTrace (clearedAt clear) fuel ctr queue) ≤ 1) ∧
    (∀ fuel ctr, workerTrace (fun _ => true) fuel ctr []
        = (List.range fuel).map fun i => WEv.check (ctr + i) true) ∧
    (∀ s ctr, sleepChecks (fun _ => true) ctr s
        = ((List.range s).map (fun i => WEv.check (ctr + i) true), ctr + s)) := by
  refine ⟨?_, ?_, ?_⟩
  · intro clear fuel
    induction fuel with
    | zero =>
      intro ctr queue
      rw [show workerTrace (clearedAt clear) 0 ctr queue = [] from rfl]
      simp [countSends]
    | succ fuel ih =>
      intro ctr queue
      by_cases hctr : clear ≤ ctr
      · rw [workerTrace_cleared clear (fuel + 1) ctr queue hctr]
        omega
      · have hf : clearedAt clear ctr = true := by
          simp [clearedAt]
          omega
        unfold workerTrace
        rw [hf]
        simp only [if_true]
        match queue with
        | [] =>
          simpa [countSends] using ih (ctr + 1) []
        | QItem.poison :: _ =>
          simp [countSends]
        | QItem.other :: rest =>
          simpa [countSends] using ih (ctr + 1) rest
        | QItem.word s :: rest =>
          simp only [countSends, List.countP_cons, List.countP_append] at *
          have hsleep := sleepChecks_no_sends (clearedAt clear)
            (fun k => decide (clear ≤ k)) s (ctr + 1)
          simp only [countSends] at hsleep
          by_cases hc : clear ≤ ctr + 1
          · have hc2 : clear ≤ (sleepChecks (clearedAt clear) (ctr + 1) s).2 :=
              hc.trans (sleepChecks_ctr_le _ s (ctr + 1))
            have hrest := workerTrace_cleared clear fuel
              (sleepChecks (clearedAt clear) (ctr + 1) s).2 rest hc2
            simp only [countSends] at hrest
            simp [hsleep, hrest, hc]
          · have hrest := ih (sleepChecks (clearedAt clear) (ctr + 1) s).2 rest
            simp only [countSends] at hrest
            simp [hsleep, hc]
            omega
  · intro fuel
    induction fuel with
    | zero => intro ctr; rfl
    | succ fuel ih =>
      intro ctr
      unfold workerTrace
      rw [ih (ctr + 1), List.range_succ_eq_map]
      simp only [if_true, List.map_cons, List.map_map, Nat.add_zero]
      congr 1
      apply List.map_congr_left
      intro i _
      simp [Function.comp]
      omega
  · intro s
    induction s with
    | zero => intro ctr; simp [sleepChecks]
    | succ s ih =>
      intro ctr
      unfold sleepChecks
      rw [ih (ctr + 1), List.range_succ_eq_map]
      simp only [if_true, List.map_cons, List.map_map, Nat.add_zero, Prod.mk.injEq]
      constructor
      · congr 1
        apply List.map_congr_left
        intro i _
        simp [Function.comp]
        omega
      · omega

end LevelupBot
